import Mathlib

/-
Verification of the IIIF content-search service (src/app/main.py).

The development shallowly embeds the pure pipeline of the `search_1`
request handler: word normalization, hitbox decoding, snippet
tokenization, phrase-span extraction, phrase-to-hitbox alignment with
union bounding boxes, and annotation/hit assembly.  The single external
Solr call is modelled by an `Option SolrData` input (`none` = the
request-level failure caught in `query_solr_with_highlighting`).
-/

namespace ContentSearch

/-- The characters of Python's `string.punctuation` constant, used by
`normalize` via `str.strip(string.punctuation)`. -/
def pythonPunctuation : List Char :=
  "!\x22#$%&\x27()*+,-./:;<=>?@[\\]^_\x60\x7b|\x7d~".toList

/-- Python `s.strip(string.punctuation)`: remove leading and trailing
characters belonging to `string.punctuation`. -/
def pyStripPunct (s : String) : String :=
  let cs := s.toList.dropWhile (fun c => pythonPunctuation.contains c)
  String.mk ((cs.reverse.dropWhile (fun c => pythonPunctuation.contains c)).reverse)

/-- Python `s.lower()`, modelled for the ASCII range: lowercase every
character. -/
def pyLower (s : String) : String :=
  String.mk (s.toList.map Char.toLower)

/-- `normalize(term)` from main.py: `term.strip(string.punctuation).lower()`. -/
def normalize (term : String) : String :=
  pyLower (pyStripPunct term)

/-- Accumulate the current word (reversed) while scanning characters. -/
def splitWsAux : List Char → List Char → List String
  | [], cur => if cur.isEmpty then [] else [String.mk cur.reverse]
  | c :: rest, cur =>
    if c.isWhitespace then
      if cur.isEmpty then splitWsAux rest []
      else String.mk cur.reverse :: splitWsAux rest []
    else splitWsAux rest (c :: cur)

/-- Python `s.split()` with no separator: split on whitespace runs,
discarding empty fields. -/
def pySplit (s : String) : List String :=
  splitWsAux s.toList []

/-- Value of a nonempty decimal digit string, `none` on any non-digit. -/
def decDigits? : List Char → Nat → Option Nat
  | [], acc => some acc
  | c :: rest, acc =>
    if c.isDigit then decDigits? rest (acc * 10 + (c.toNat - 48)) else none

/-- Python `int(s)` on a whitespace-free token: optional sign followed by
at least one decimal digit; `none` models the `ValueError`. -/
def pyInt? (s : String) : Option Int :=
  match s.toList with
  | [] => none
  | '-' :: rest =>
    if rest.isEmpty then none else (decDigits? rest 0).map (fun n => -(n : Int))
  | '+' :: rest =>
    if rest.isEmpty then none else (decDigits? rest 0).map (fun n => (n : Int))
  | cs => (decDigits? cs 0).map (fun n => (n : Int))

/-- Parse `"x1 y1 x2 y2"` into four integers, as done by
`map(int, bbox_str.strip().split())` with four-way unpacking; `none`
models any raised exception. -/
def parseBbox? (s : String) : Option (Int × Int × Int × Int) :=
  match (pySplit s).map pyInt? with
  | [some x1, some y1, some x2, some y2] => some (x1, y1, x2, y2)
  | _ => none

/-- `convert_bbox_to_xywh` from main.py: on success the returned string
holds `x1,y1,x2-x1,y2-y1`, modelled as the integer 4-tuple; `none` is the
logged-and-swallowed exception path. -/
def convert_bbox_to_xywh (bbox_str : String) : Option (Int × Int × Int × Int) :=
  (parseBbox? bbox_str).map (fun b => (b.1, b.2.1, b.2.2.1 - b.1, b.2.2.2 - b.2.1))

/-- Split a character list at the first `'|'`; `none` when no bar occurs. -/
def splitBarAux : List Char → Option (List Char × List Char)
  | [] => none
  | c :: rest =>
    if c = '|' then some ([], rest)
    else (splitBarAux rest).map (fun p => (c :: p.1, p.2))

/-- Python `val.split("|", 1)` restricted to the `"|" in val` case used by
the decoder: the text before the first bar and everything after it. -/
def splitBar? (s : String) : Option (String × String) :=
  (splitBarAux s.toList).map (fun p => (String.mk p.1, String.mk p.2))

/-- The `normalized_hitboxes` list comprehension of `search_1`: keep
exactly the records containing `'|'`, mapping each to
`(normalize (word part), coordinate part)`.  No coordinate validation
happens here. -/
def decodeHitboxes (hitboxes : List String) : List (String × String) :=
  hitboxes.filterMap (fun val => (splitBar? val).map (fun p => (normalize p.1, p.2)))

/-- A flat parsed snippet segment: plain text between tags, or the
contents of one `<em>` element (Solr emits a flat, single tag type). -/
inductive Seg where
  | text (s : String) : Seg
  | em (s : String) : Seg
deriving DecidableEq

/-- Tokens contributed by one segment during the
`soup.recursiveChildGenerator()` walk.  The generator performs a
pre-order traversal: an `<em>` element is yielded first (producing
`matched = true` tokens from its text), and then its inner text node is
yielded again as a plain string, producing the same words a second time
with `matched = false`. -/
def tokenizeSeg : Seg → List (String × Bool)
  | Seg.text s => (pySplit s).map (fun w => (normalize w, false))
  | Seg.em s =>
    (pySplit s).map (fun w => (normalize w, true))
      ++ (pySplit s).map (fun w => (normalize w, false))

/-- The `words_with_em` list built by `search_1` for one snippet. -/
def words_with_em (snippet : List Seg) : List (String × Bool) :=
  (snippet.map tokenizeSeg).flatten

/-- One step bound per consumed token suffices for the scan below. -/
def extractSpansFuel : Nat → List (String × Bool) → List (List String)
  | 0, _ => []
  | _, [] => []
  | fuel + 1, (w, b) :: rest =>
    if b then
      (w :: (rest.takeWhile (fun t => t.2)).map Prod.fst)
        :: extractSpansFuel fuel (rest.dropWhile (fun t => t.2))
    else extractSpansFuel fuel rest

/-- The `while idx < len(words_with_em)` scan of `search_1`: each maximal
run of `matched = true` tokens becomes one phrase (its word list). -/
def extractSpans (ts : List (String × Bool)) : List (List String) :=
  extractSpansFuel ts.length ts

/-- The candidate window `normalized_hitboxes[i:i+L]`. -/
def window (H : List (String × String)) (i L : Nat) : List (String × String) :=
  (H.drop i).take L

/-- The phrase's words match the hitbox words at index `i`
(`window_words == phrase_words` in `search_1`). -/
def matchAt (H : List (String × String)) (phrase : List String) (i : Nat) : Prop :=
  (window H i phrase.length).map Prod.fst = phrase

instance (H : List (String × String)) (phrase : List String) (i : Nat) :
    Decidable (matchAt H phrase i) :=
  inferInstanceAs (Decidable (_ = _))

/-- Parse every coordinate string of a window; `none` exactly when the
`if None in xywhs` guard of `search_1` fires for that window. -/
def parseAll? : List (String × String) → Option (List (Int × Int × Int × Int))
  | [] => some []
  | p :: rest =>
    match parseBbox? p.2, parseAll? rest with
    | some b, some bs => some (b :: bs)
    | _, _ => none

/-- The inner `for i in range(len(normalized_hitboxes) - L + 1)` scan: at
each index, on a word match either accept (returning the index and the
parsed window boxes) or, when some box fails to parse, continue with the
next index; `break` on the first acceptance. -/
def alignAux (H : List (String × String)) (phrase : List String) :
    Nat → Nat → Option (Nat × List (Int × Int × Int × Int))
  | 0, _ => none
  | fuel + 1, i =>
    if (window H i phrase.length).map Prod.fst = phrase then
      match parseAll? (window H i phrase.length) with
      | some boxes => some (i, boxes)
      | none => alignAux H phrase fuel (i + 1)
    else alignAux H phrase fuel (i + 1)

/-- Alignment of one phrase against the decoded hitbox sequence, with the
Python `range` bound `len(H) - L + 1` (empty when `L > len(H)`). -/
def align (H : List (String × String)) (phrase : List String) :
    Option (Nat × List (Int × Int × Int × Int)) :=
  alignAux H phrase (H.length + 1 - phrase.length) 0

/-- Python `min` over a list (callers only use nonempty lists). -/
def listMin : List Int → Int
  | [] => 0
  | x :: xs => xs.foldl min x

/-- Python `max` over a list (callers only use nonempty lists). -/
def listMax : List Int → Int
  | [] => 0
  | x :: xs => xs.foldl max x

/-- The union bounding box computed by `search_1` (lines 169-187):
`(min x1, min y1, max x2 - min x1, max y2 - min y1)` in xywh form. -/
def unionBox (boxes : List (Int × Int × Int × Int)) : Int × Int × Int × Int :=
  let x := listMin (boxes.map (fun b => b.1))
  let y := listMin (boxes.map (fun b => b.2.1))
  let x2 := listMax (boxes.map (fun b => b.2.2.1))
  let y2 := listMax (boxes.map (fun b => b.2.2.2))
  (x, y, x2 - x, y2 - y)

/-- One emitted annotation: its id, the `resource.chars` text, the union
box as integers, and the `on` target string. -/
structure Anno where
  annoId : String
  chars : String
  box : Int × Int × Int × Int
  target : String
deriving DecidableEq

/-- One emitted `search:Hit`, referencing annotation ids. -/
structure Hit where
  annos : List String
deriving DecidableEq

/-- The f-string `xywh` fragment `"x,y,w,h"`. -/
def renderXYWH (b : Int × Int × Int × Int) : String :=
  b.1.repr ++ "," ++ b.2.1.repr ++ "," ++ b.2.2.1.repr ++ "," ++ b.2.2.2.repr

/-- The annotation id built in `search_1`:
url root, `"/annotation/"`, then `doc_id`, start index and end index
joined by underscores. -/
def mkAnnoId (urlRoot docId : String) (i j : Nat) : String :=
  urlRoot ++ "/annotation/" ++ docId ++ "_" ++ Nat.repr i ++ "_" ++ Nat.repr j

/-- Process one phrase span: on a successful alignment emit exactly one
annotation and one hit referencing it; otherwise emit nothing. -/
def processPhrase (urlRoot docId canvas : String) (H : List (String × String))
    (phrase : List String) : List Anno × List Hit :=
  match align H phrase with
  | none => ([], [])
  | some (i, boxes) =>
    let ub := unionBox boxes
    let aid := mkAnnoId urlRoot docId i (i + phrase.length - 1)
    ([{ annoId := aid, chars := String.intercalate " " phrase, box := ub,
        target := canvas ++ "#xywh=" ++ renderXYWH ub }],
     [{ annos := [aid] }])

/-- Concatenate per-unit annotation and hit lists in order. -/
def concatPairs (ps : List (List Anno × List Hit)) : List Anno × List Hit :=
  ((ps.map Prod.fst).flatten, (ps.map Prod.snd).flatten)

/-- Process the phrase spans of one snippet in order. -/
def processSpans (urlRoot docId canvas : String) (H : List (String × String))
    (spans : List (List String)) : List Anno × List Hit :=
  concatPairs (spans.map (processPhrase urlRoot docId canvas H))

/-- Process one highlight snippet: tokenize, extract spans, align each. -/
def processSnippet (urlRoot docId canvas : String) (H : List (String × String))
    (snippet : List Seg) : List Anno × List Hit :=
  processSpans urlRoot docId canvas H (extractSpans (words_with_em snippet))

/-- One Solr document as consumed by `search_1`: id, the possibly absent
or empty `canvas_id_ssi`, the raw hitbox field, and the highlighting
entry (`none` when `doc_id not in highlighting`; the missing-text-field
default `[]` is `some []`). -/
structure SolrDoc where
  docId : String
  canvasId : Option String
  hitboxes : List String
  highlightSnips : Option (List (List Seg))
deriving DecidableEq

/-- The parsed Solr response body used by `search_1`. -/
structure SolrData where
  numFound : Nat
  docs : List SolrDoc
deriving DecidableEq

/-- Process one document: skipped entirely when the canvas id is falsy
(`None` or `""`) or the highlighting entry is absent; otherwise decode
the hitboxes once and process every snippet against them. -/
def processDoc (urlRoot : String) (doc : SolrDoc) : List Anno × List Hit :=
  match doc.canvasId, doc.highlightSnips with
  | some canvas, some snips =>
    if canvas = "" then ([], [])
    else
      concatPairs
        (snips.map (processSnippet urlRoot doc.docId canvas (decodeHitboxes doc.hitboxes)))
  | _, _ => ([], [])

/-- The pipeline output of `search_1`: the reported total and the
ordered `hits` and `resources` lists. -/
structure SearchResult where
  total : Nat
  hits : List Hit
  resources : List Anno
deriving DecidableEq

/-- The `search_1` handler after parameter parsing: a failed Solr call
(`solr_data is None`) is the 503 "Solr unavailable" response; otherwise
the decode/tokenize/align/assemble pipeline runs to completion and the
total is Solr's `numFound`. -/
instance : DecidableEq (Except String SearchResult) := fun a b =>
  match a, b with
  | Except.ok x, Except.ok y =>
    if h : x = y then isTrue (by rw [h])
    else isFalse (fun hc => h (by cases hc; rfl))
  | Except.error x, Except.error y =>
    if h : x = y then isTrue (by rw [h])
    else isFalse (fun hc => h (by cases hc; rfl))
  | Except.ok _, Except.error _ => isFalse (fun hc => by cases hc)
  | Except.error _, Except.ok _ => isFalse (fun hc => by cases hc)

def search_1 (urlRoot : String) (solrData : Option SolrData) :
    Except String SearchResult :=
  match solrData with
  | none => Except.error "Solr unavailable"
  | some data =>
    let pairs := concatPairs (data.docs.map (processDoc urlRoot))
    Except.ok { total := data.numFound, hits := pairs.2, resources := pairs.1 }

/-- The hit emitted alongside an annotation: it references exactly that
annotation's id. -/
def hitOf (a : Anno) : Hit :=
  { annos := [a.annoId] }

/-- Membership form of being the minimum of a list. -/
def isLeastOf (m : Int) (l : List Int) : Prop :=
  m ∈ l ∧ ∀ b ∈ l, m ≤ b

/-- Membership form of being the maximum of a list. -/
def isGreatestOf (m : Int) (l : List Int) : Prop :=
  m ∈ l ∧ ∀ b ∈ l, b ≤ m

/-- A one-word document whose only hitbox has inverted coordinates. -/
def invertedDoc : SolrDoc :=
  { docId := "d", canvasId := some "c", hitboxes := ["fox|5 5 3 3"],
    highlightSnips := some [[Seg.em "fox"]] }

/-- The annotation the pipeline emits for `invertedDoc`. -/
def invertedAnno : Anno :=
  { annoId := "u/annotation/d_0_0", chars := "fox", box := (5, 5, -2, -2),
    target := "c#xywh=5,5,-2,-2" }

/-- A one-word document with a valid, non-inverted hitbox. -/
def validDoc : SolrDoc :=
  { docId := "d", canvasId := some "c", hitboxes := ["fox|5 5 15 17"],
    highlightSnips := some [[Seg.em "fox"]] }

/-- The annotation the pipeline emits for `validDoc`. -/
def validAnno : Anno :=
  { annoId := "u/annotation/d_0_0", chars := "fox", box := (5, 5, 10, 12),
    target := "c#xywh=5,5,10,12" }

/-- The response for a request returning `validDoc` alone. -/
def validResult : SearchResult :=
  { total := 1, hits := [{ annos := ["u/annotation/d_0_0"] }],
    resources := [validAnno] }

/-- A document carrying highlighting but no canvas identifier. -/
def noCanvasDoc : SolrDoc :=
  { docId := "e", canvasId := none, hitboxes := ["w|1 1 2 2"],
    highlightSnips := some [[Seg.em "w"]] }

/-- A document with a canvas but no highlighting entry. -/
def noHlDoc : SolrDoc :=
  { docId := "d", canvasId := some "c", hitboxes := ["w|1 1 2 2"],
    highlightSnips := none }

/-- Entries of a candidate window are entries of the decoded sequence. -/
theorem mem_window {q : String × String} {H : List (String × String)} {i L : Nat}
    (h : q ∈ window H i L) : q ∈ H :=
  List.mem_of_mem_drop (List.mem_of_mem_take h)

/-- A successful word match needs a full-length window, hence fits inside
the decoded sequence. -/
theorem matchAt_bound {H : List (String × String)} {p : List String} {j : Nat}
    (hp : p ≠ []) (h : matchAt H p j) : j + p.length ≤ H.length := by
  have hlen := congrArg List.length h
  simp only [List.length_map, window, List.length_take, List.length_drop] at hlen
  have hpos : 0 < p.length := List.length_pos.mpr hp
  omega

/-- Bounded no-match extends to all indices for a nonempty phrase. -/
theorem not_matchAt_of_bounded {H : List (String × String)} {p : List String}
    (hp : p ≠ []) (h : ∀ i, i < H.length → ¬ matchAt H p i) :
    ∀ i, ¬ matchAt H p i := by
  intro i hm
  have hb := matchAt_bound hp hm
  have hpos : 0 < p.length := List.length_pos.mpr hp
  exact h i (by omega) hm

/-- Parsing a window succeeds when every coordinate string parses. -/
theorem parseAll?_isSome {l : List (String × String)}
    (h : ∀ q ∈ l, (parseBbox? q.2).isSome) : (parseAll? l).isSome := by
  induction l with
  | nil => simp [parseAll?]
  | cons q l ih =>
    have hq := h q (by simp)
    rw [Option.isSome_iff_exists] at hq
    obtain ⟨b, hb⟩ := hq
    have hl := ih (fun r hr => h r (by simp [hr]))
    rw [Option.isSome_iff_exists] at hl
    obtain ⟨bs, hbs⟩ := hl
    simp [parseAll?, hb, hbs]

/-- A parsed window has one box per entry. -/
theorem parseAll?_length {l : List (String × String)}
    {bs : List (Int × Int × Int × Int)} (h : parseAll? l = some bs) :
    bs.length = l.length := by
  induction l generalizing bs with
  | nil => simp [parseAll?] at h; simp [h.symm]
  | cons q l ih =>
    rw [parseAll?] at h
    cases hq : parseBbox? q.2 with
    | none => rw [hq] at h; simp at h
    | some b =>
      rw [hq] at h
      cases hl : parseAll? l with
      | none => rw [hl] at h; simp at h
      | some bs0 =>
        rw [hl] at h
        simp only [Option.some.injEq] at h
        subst h
        simp [ih hl]

/-- Every parsed box of a window comes from some entry of the window. -/
theorem parseAll?_mem {l : List (String × String)}
    {bs : List (Int × Int × Int × Int)} (h : parseAll? l = some bs) :
    ∀ b ∈ bs, ∃ q ∈ l, parseBbox? q.2 = some b := by
  induction l generalizing bs with
  | nil => simp [parseAll?] at h; subst h; simp
  | cons q l ih =>
    rw [parseAll?] at h
    cases hq : parseBbox? q.2 with
    | none => rw [hq] at h; simp at h
    | some b0 =>
      rw [hq] at h
      cases hl : parseAll? l with
      | none => rw [hl] at h; simp at h
      | some bs0 =>
        rw [hl] at h
        simp only [Option.some.injEq] at h
        subst h
        intro b hb
        rcases List.mem_cons.mp hb with rfl | hb
        · exact ⟨q, by simp, hq⟩
        · obtain ⟨r, hr, hrb⟩ := ih hl b hb
          exact ⟨r, by simp [hr], hrb⟩

/-- Soundness of the alignment scan: a returned index lies in the scanned
range, its window matches and parses, and every earlier scanned index
either fails the word match or fails box parsing. -/
theorem alignAux_some_spec (H : List (String × String)) (p : List String) :
    ∀ fuel i j boxes, alignAux H p fuel i = some (j, boxes) →
      i ≤ j ∧ j < i + fuel ∧ matchAt H p j ∧
      parseAll? (window H j p.length) = some boxes ∧
      ∀ k, i ≤ k → k < j →
        ¬(matchAt H p k ∧ (parseAll? (window H k p.length)).isSome) := by
  intro fuel
  induction fuel with
  | zero => intro i j boxes h; simp [alignAux] at h
  | succ n ih =>
    intro i j boxes h
    simp only [alignAux] at h
    split at h
    case isTrue hm =>
      cases hp : parseAll? (window H i p.length) with
      | some bs =>
        rw [hp] at h
        simp only [Option.some.injEq, Prod.mk.injEq] at h
        obtain ⟨rfl, rfl⟩ := h
        refine ⟨Nat.le_refl i, by omega, hm, hp, ?_⟩
        intro k hk1 hk2
        omega
      | none =>
        rw [hp] at h
        obtain ⟨h1, h2, h3, h4, h5⟩ := ih (i + 1) j boxes h
        refine ⟨by omega, by omega, h3, h4, ?_⟩
        intro k hk1 hk2 hcon
        rcases Nat.eq_or_lt_of_le hk1 with rfl | hlt
        · rw [hp] at hcon
          simp at hcon
        · exact h5 k hlt hk2 hcon
    case isFalse hm =>
      obtain ⟨h1, h2, h3, h4, h5⟩ := ih (i + 1) j boxes h
      refine ⟨by omega, by omega, h3, h4, ?_⟩
      intro k hk1 hk2 hcon
      rcases Nat.eq_or_lt_of_le hk1 with rfl | hlt
      · exact hm hcon.1
      · exact h5 k hlt hk2 hcon

/-- Completeness of the alignment scan: a matching, parsable index inside
the scanned range makes the scan succeed. -/
theorem alignAux_isSome (H : List (String × String)) (p : List String) :
    ∀ fuel i j, i ≤ j → j < i + fuel → matchAt H p j →
      (parseAll? (window H j p.length)).isSome →
      (alignAux H p fuel i).isSome := by
  intro fuel
  induction fuel with
  | zero => intro i j h1 h2 _ _; omega
  | succ n ih =>
    intro i j h1 h2 hm hv
    simp only [alignAux]
    split
    case isTrue hmi =>
      cases hps : parseAll? (window H i p.length) with
      | some bs => simp
      | none =>
        rcases Nat.eq_or_lt_of_le h1 with rfl | hlt
        · rw [hps] at hv; simp at hv
        · exact ih (i + 1) j hlt (by omega) hm hv
    case isFalse hmi =>
      rcases Nat.eq_or_lt_of_le h1 with rfl | hlt
      · exact absurd hm hmi
      · exact ih (i + 1) j hlt (by omega) hm hv

/-- Soundness of `align`. -/
theorem align_some_spec {H : List (String × String)} {p : List String}
    {i : Nat} {boxes : List (Int × Int × Int × Int)}
    (h : align H p = some (i, boxes)) :
    matchAt H p i ∧ parseAll? (window H i p.length) = some boxes ∧
    ∀ k, k < i → ¬(matchAt H p k ∧ (parseAll? (window H k p.length)).isSome) := by
  obtain ⟨_, _, h3, h4, h5⟩ :=
    alignAux_some_spec H p (H.length + 1 - p.length) 0 i boxes h
  exact ⟨h3, h4, fun k hk => h5 k (Nat.zero_le k) hk⟩

/-- Completeness of `align` for a matching, parsable index. -/
theorem align_isSome_of {H : List (String × String)} {p : List String} {i : Nat}
    (hp : p ≠ []) (hm : matchAt H p i)
    (hv : (parseAll? (window H i p.length)).isSome) : (align H p).isSome := by
  have hb := matchAt_bound hp hm
  have hpos : 0 < p.length := List.length_pos.mpr hp
  exact alignAux_isSome H p (H.length + 1 - p.length) 0 i (Nat.zero_le i)
    (by omega) hm hv

/-- Alignment fails when no index matches at the word level. -/
theorem align_eq_none {H : List (String × String)} {p : List String}
    (h : ∀ i, ¬ matchAt H p i) : align H p = none := by
  cases ha : align H p with
  | none => rfl
  | some x =>
    obtain ⟨i, boxes⟩ := x
    obtain ⟨hm, _, _⟩ := align_some_spec ha
    exact absurd hm (h i)

/-- Folding `min` returns the accumulator or a list element, bounds the
accumulator, and bounds every element. -/
theorem foldl_min_spec (xs : List Int) :
    ∀ a : Int, (xs.foldl min a = a ∨ xs.foldl min a ∈ xs) ∧
      xs.foldl min a ≤ a ∧ ∀ b ∈ xs, xs.foldl min a ≤ b := by
  induction xs with
  | nil => simp
  | cons x xs ih =>
    intro a
    simp only [List.foldl_cons, List.mem_cons]
    obtain ⟨h1, h2, h3⟩ := ih (min a x)
    refine ⟨?_, le_trans h2 (min_le_left a x), ?_⟩
    · rcases h1 with h | h
      · rcases min_choice a x with hm | hm
        · left; rw [h, hm]
        · right; left; rw [h, hm]
      · right; right; exact h
    · intro b hb
      rcases hb with rfl | hb
      · exact le_trans h2 (min_le_right a b)
      · exact h3 b hb

/-- Folding `max` returns the accumulator or a list element, bounds the
accumulator, and bounds every element. -/
theorem foldl_max_spec (xs : List Int) :
    ∀ a : Int, (xs.foldl max a = a ∨ xs.foldl max a ∈ xs) ∧
      a ≤ xs.foldl max a ∧ ∀ b ∈ xs, b ≤ xs.foldl max a := by
  induction xs with
  | nil => simp
  | cons x xs ih =>
    intro a
    simp only [List.foldl_cons, List.mem_cons]
    obtain ⟨h1, h2, h3⟩ := ih (max a x)
    refine ⟨?_, le_trans (le_max_left a x) h2, ?_⟩
    · rcases h1 with h | h
      · rcases max_choice a x with hm | hm
        · left; rw [h, hm]
        · right; left; rw [h, hm]
      · right; right; exact h
    · intro b hb
      rcases hb with rfl | hb
      · exact le_trans (le_max_right a b) h2
      · exact h3 b hb

/-- `listMin` of a nonempty list is its least element. -/
theorem listMin_spec (xs : List Int) (hne : xs ≠ []) :
    listMin xs ∈ xs ∧ ∀ b ∈ xs, listMin xs ≤ b := by
  cases xs with
  | nil => exact absurd rfl hne
  | cons x l =>
    obtain ⟨h1, h2, h3⟩ := foldl_min_spec l x
    refine ⟨?_, ?_⟩
    · rcases h1 with h | h
      · simp [listMin, h]
      · simp [listMin, List.mem_cons]
        right
        exact h
    · intro b hb
      rcases List.mem_cons.mp hb with rfl | hb
      · exact h2
      · exact h3 b hb

/-- `listMax` of a nonempty list is its greatest element. -/
theorem listMax_spec (xs : List Int) (hne : xs ≠ []) :
    listMax xs ∈ xs ∧ ∀ b ∈ xs, b ≤ listMax xs := by
  cases xs with
  | nil => exact absurd rfl hne
  | cons x l =>
    obtain ⟨h1, h2, h3⟩ := foldl_max_spec l x
    refine ⟨?_, ?_⟩
    · rcases h1 with h | h
      · simp [listMax, h]
      · simp [listMax, List.mem_cons]
        right
        exact h
    · intro b hb
      rcases List.mem_cons.mp hb with rfl | hb
      · exact h2
      · exact h3 b hb

/-- Each phrase's hit list mirrors its annotation list. -/
theorem processPhrase_snd (u d c : String) (H : List (String × String))
    (p : List String) :
    (processPhrase u d c H p).2 = (processPhrase u d c H p).1.map hitOf := by
  cases h : align H p with
  | none => simp [processPhrase, h]
  | some x =>
    obtain ⟨i, boxes⟩ := x
    simp [processPhrase, h, hitOf]

/-- Concatenation preserves the hit/annotation mirror. -/
theorem concatPairs_snd_map (ps : List (List Anno × List Hit))
    (h : ∀ pr ∈ ps, pr.2 = pr.1.map hitOf) :
    (concatPairs ps).2 = (concatPairs ps).1.map hitOf := by
  unfold concatPairs
  induction ps with
  | nil => simp
  | cons pr ps ih =>
    have ih2 := ih (fun q hq => h q (by simp [hq]))
    simp only at ih2
    simp only [List.map_cons, List.flatten_cons, List.map_append]
    rw [h pr (by simp), ih2]

/-- Snippet-level mirror. -/
theorem processSpans_snd (u d c : String) (H : List (String × String))
    (spans : List (List String)) :
    (processSpans u d c H spans).2 = (processSpans u d c H spans).1.map hitOf := by
  apply concatPairs_snd_map
  intro pr hpr
  rw [List.mem_map] at hpr
  obtain ⟨p, _, rfl⟩ := hpr
  exact processPhrase_snd u d c H p

/-- Document-level mirror. -/
theorem processDoc_snd (u : String) (doc : SolrDoc) :
    (processDoc u doc).2 = (processDoc u doc).1.map hitOf := by
  unfold processDoc
  cases doc.canvasId with
  | none => simp
  | some canvas =>
    cases doc.highlightSnips with
    | none => simp
    | some snips =>
      simp only
      split
      · simp
      · apply concatPairs_snd_map
        intro pr hpr
        rw [List.mem_map] at hpr
        obtain ⟨snip, _, rfl⟩ := hpr
        exact processSpans_snd u doc.docId canvas (decodeHitboxes doc.hitboxes) _

/-- Request-level mirror: the hits list is exactly the annotation list
mapped to single-reference hits. -/
theorem search_1_snd (u : String) (data : SolrData) {r : SearchResult}
    (h : search_1 u (some data) = Except.ok r) :
    r.hits = r.resources.map hitOf := by
  simp only [search_1, Except.ok.injEq] at h
  subst h
  apply concatPairs_snd_map
  intro pr hpr
  rw [List.mem_map] at hpr
  obtain ⟨doc, _, rfl⟩ := hpr
  exact processDoc_snd u doc

/-- An annotation in a concatenation comes from one of the parts. -/
theorem mem_concatPairs_fst {a : Anno} {ps : List (List Anno × List Hit)}
    (h : a ∈ (concatPairs ps).1) : ∃ pr ∈ ps, a ∈ pr.1 := by
  unfold concatPairs at h
  rw [List.mem_flatten] at h
  obtain ⟨l, hl, hal⟩ := h
  rw [List.mem_map] at hl
  obtain ⟨pr, hpr, rfl⟩ := hl
  exact ⟨pr, hpr, hal⟩

/-- An emitted annotation of one phrase records the union box of the
parsed boxes of a successfully aligned window. -/
theorem processPhrase_fst_mem {a : Anno} {u d c : String}
    {H : List (String × String)} {p : List String}
    (h : a ∈ (processPhrase u d c H p).1) :
    ∃ i boxes, align H p = some (i, boxes) ∧ a.box = unionBox boxes := by
  cases ha : align H p with
  | none => simp [processPhrase, ha] at h
  | some x =>
    obtain ⟨i, boxes⟩ := x
    simp only [processPhrase, ha, List.mem_singleton] at h
    subst h
    exact ⟨i, boxes, rfl, rfl⟩

/-- Union boxes of non-inverted boxes have nonnegative width and height. -/
theorem unionBox_nonneg (boxes : List (Int × Int × Int × Int))
    (h : ∀ b ∈ boxes, b.1 ≤ b.2.2.1 ∧ b.2.1 ≤ b.2.2.2) :
    0 ≤ (unionBox boxes).2.2.1 ∧ 0 ≤ (unionBox boxes).2.2.2 := by
  cases hb : boxes with
  | nil => simp [unionBox, listMin, listMax]
  | cons b0 bs =>
    subst hb
    unfold unionBox
    simp only
    constructor
    · obtain ⟨hmx, _⟩ := listMax_spec ((b0 :: bs).map (fun b => b.2.2.1)) (by simp)
      rw [List.mem_map] at hmx
      obtain ⟨bw, hbw, hbweq⟩ := hmx
      obtain ⟨_, hminle⟩ := listMin_spec ((b0 :: bs).map (fun b => b.1)) (by simp)
      have h1 : listMin ((b0 :: bs).map (fun b => b.1)) ≤ bw.1 :=
        hminle bw.1 (List.mem_map.mpr ⟨bw, hbw, rfl⟩)
      have h2 : bw.1 ≤ bw.2.2.1 := (h bw hbw).1
      omega
    · obtain ⟨hmx, _⟩ := listMax_spec ((b0 :: bs).map (fun b => b.2.2.2)) (by simp)
      rw [List.mem_map] at hmx
      obtain ⟨bw, hbw, hbweq⟩ := hmx
      obtain ⟨_, hminle⟩ := listMin_spec ((b0 :: bs).map (fun b => b.2.1)) (by simp)
      have h1 : listMin ((b0 :: bs).map (fun b => b.2.1)) ≤ bw.2.1 :=
        hminle bw.2.1 (List.mem_map.mpr ⟨bw, hbw, rfl⟩)
      have h2 : bw.2.1 ≤ bw.2.2.2 := (h bw hbw).2
      omega

/-- C1: for a nonempty phrase span and a decoded hitbox sequence whose
coordinate strings all parse, alignment returns the smallest index whose
window of normalized words equals the phrase exactly and in order (and
that index carries a full window); whenever any index matches, alignment
succeeds; and every phrase yields at most one annotation, so later
duplicate occurrences are never separately annotated. -/
theorem C1_first_occurrence (H : List (String × String)) (p : List String)
    (u d c : String)
    (hval : ∀ q ∈ H, (parseBbox? q.2).isSome) (hp : p ≠ []) :
    (∀ i boxes, align H p = some (i, boxes) →
      matchAt H p i ∧ i + p.length ≤ H.length ∧
        ∀ j, j < i → ¬ matchAt H p j) ∧
    (∀ i, matchAt H p i → (align H p).isSome) ∧
    (∀ q : List String, (processPhrase u d c H q).1.length ≤ 1) := by
  refine ⟨?_, ?_, ?_⟩
  · intro i boxes h
    obtain ⟨hm, _, hmin⟩ := align_some_spec h
    refine ⟨hm, matchAt_bound hp hm, ?_⟩
    intro j hj hmj
    exact hmin j hj ⟨hmj, parseAll?_isSome (fun q hq => hval q (mem_window hq))⟩
  · intro i hm
    exact align_isSome_of hp hm
      (parseAll?_isSome (fun q hq => hval q (mem_window hq)))
  · intro q
    cases hq : align H q with
    | none => simp [processPhrase, hq]
    | some x =>
      obtain ⟨i, boxes⟩ := x
      simp [processPhrase, hq]

/-- Witness for C1 on a sequence where the phrase occurs twice: index 0
is matched, is returned, and nothing earlier matches. -/
theorem C1_first_occurrence_witness :
    matchAt (decodeHitboxes ["dog|0 0 9 9", "cat|10 0 19 9", "dog|20 0 29 9"])
      ["dog"] 0 ∧
    (0 : Nat) + 1 ≤ 3 ∧
    (∀ j, j < 0 →
      ¬ matchAt (decodeHitboxes ["dog|0 0 9 9", "cat|10 0 19 9", "dog|20 0 29 9"])
        ["dog"] j) ∧
    (align (decodeHitboxes ["dog|0 0 9 9", "cat|10 0 19 9", "dog|20 0 29 9"])
      ["dog"]).isSome := by
  have h := C1_first_occurrence
    (decodeHitboxes ["dog|0 0 9 9", "cat|10 0 19 9", "dog|20 0 29 9"])
    ["dog"] "u" "d" "c" (by decide) (by decide)
  obtain ⟨h1, h2, h3⟩ := h.1 0 [(0, 0, 9, 9)] (by decide)
  exact ⟨h1, h2, h3, h.2.1 0 (by decide)⟩

/-- C2: a successfully aligned phrase is emitted as exactly one
annotation whose box is the union box of the parsed corner boxes of the
matched window: x is the least x1, y the least y1, x + width the greatest
x2, y + height the greatest y2; for a single-entry window the box equals
that word's own box converted to xywh. -/
theorem C2_union_bbox (u d c : String) (H : List (String × String))
    (p : List String) (i : Nat) (boxes : List (Int × Int × Int × Int))
    (hp : p ≠ []) (h : align H p = some (i, boxes)) :
    ∃ a, (processPhrase u d c H p).1 = [a] ∧
      parseAll? (window H i p.length) = some boxes ∧
      a.box = unionBox boxes ∧
      isLeastOf a.box.1 (boxes.map (fun b => b.1)) ∧
      isLeastOf a.box.2.1 (boxes.map (fun b => b.2.1)) ∧
      isGreatestOf (a.box.1 + a.box.2.2.1) (boxes.map (fun b => b.2.2.1)) ∧
      isGreatestOf (a.box.2.1 + a.box.2.2.2) (boxes.map (fun b => b.2.2.2)) ∧
      (∀ e : String × String, window H i p.length = [e] →
        convert_bbox_to_xywh e.2 = some a.box) := by
  obtain ⟨hm, hparse, _⟩ := align_some_spec h
  have hwlen : (window H i p.length).length = p.length := by
    have hc := congrArg List.length hm
    simpa using hc
  have hbne : boxes ≠ [] := by
    intro hb
    apply hp
    have hl := parseAll?_length hparse
    rw [hb, hwlen] at hl
    simp at hl
    exact List.length_eq_zero.mp hl.symm
  have hub : unionBox boxes =
      (listMin (boxes.map (fun b => b.1)), listMin (boxes.map (fun b => b.2.1)),
       listMax (boxes.map (fun b => b.2.2.1)) - listMin (boxes.map (fun b => b.1)),
       listMax (boxes.map (fun b => b.2.2.2)) - listMin (boxes.map (fun b => b.2.1))) := rfl
  refine ⟨{ annoId := mkAnnoId u d i (i + p.length - 1),
            chars := String.intercalate " " p, box := unionBox boxes,
            target := c ++ "#xywh=" ++ renderXYWH (unionBox boxes) },
    by simp [processPhrase, h], hparse, rfl, ?_, ?_, ?_, ?_, ?_⟩
  · rw [hub]
    obtain ⟨h1, h2⟩ := listMin_spec (boxes.map (fun b => b.1)) (by simp [hbne])
    exact ⟨h1, h2⟩
  · rw [hub]
    obtain ⟨h1, h2⟩ := listMin_spec (boxes.map (fun b => b.2.1)) (by simp [hbne])
    exact ⟨h1, h2⟩
  · rw [hub]
    have harith : listMin (boxes.map (fun b => b.1)) +
        (listMax (boxes.map (fun b => b.2.2.1)) - listMin (boxes.map (fun b => b.1))) =
        listMax (boxes.map (fun b => b.2.2.1)) := by ring
    rw [harith]
    obtain ⟨h1, h2⟩ := listMax_spec (boxes.map (fun b => b.2.2.1)) (by simp [hbne])
    exact ⟨h1, h2⟩
  · rw [hub]
    have harith : listMin (boxes.map (fun b => b.2.1)) +
        (listMax (boxes.map (fun b => b.2.2.2)) - listMin (boxes.map (fun b => b.2.1))) =
        listMax (boxes.map (fun b => b.2.2.2)) := by ring
    rw [harith]
    obtain ⟨h1, h2⟩ := listMax_spec (boxes.map (fun b => b.2.2.2)) (by simp [hbne])
    exact ⟨h1, h2⟩
  · intro e he
    rw [he] at hparse
    cases hbe : parseBbox? e.2 with
    | none => rw [parseAll?, hbe] at hparse; simp at hparse
    | some b =>
      rw [parseAll?, hbe] at hparse
      simp only [parseAll?] at hparse
      simp only [Option.some.injEq] at hparse
      subst hparse
      simp [convert_bbox_to_xywh, hbe, unionBox, listMin, listMax]

/-- Witness for C2 on the worked example: "quick brown" matched at
index 1 of the four-word page. -/
theorem C2_union_bbox_witness :
    ∃ a, (processPhrase "u" "d" "c"
        (decodeHitboxes
          ["The|0 0 10 10", "quick|12 0 30 10", "brown|32 0 50 10", "fox|52 0 70 10"])
        ["quick", "brown"]).1 = [a] ∧
      parseAll? (window
        (decodeHitboxes
          ["The|0 0 10 10", "quick|12 0 30 10", "brown|32 0 50 10", "fox|52 0 70 10"])
        1 2) = some [(12, 0, 30, 10), (32, 0, 50, 10)] ∧
      a.box = unionBox [(12, 0, 30, 10), (32, 0, 50, 10)] ∧
      isLeastOf a.box.1 [12, 32] ∧
      isLeastOf a.box.2.1 [0, 0] ∧
      isGreatestOf (a.box.1 + a.box.2.2.1) [30, 50] ∧
      isGreatestOf (a.box.2.1 + a.box.2.2.2) [10, 10] ∧
      (∀ e : String × String, window
          (decodeHitboxes
            ["The|0 0 10 10", "quick|12 0 30 10", "brown|32 0 50 10", "fox|52 0 70 10"])
          1 2 = [e] →
        convert_bbox_to_xywh e.2 = some a.box) := by
  have h := C2_union_bbox "u" "d" "c"
    (decodeHitboxes
      ["The|0 0 10 10", "quick|12 0 30 10", "brown|32 0 50 10", "fox|52 0 70 10"])
    ["quick", "brown"] 1 [(12, 0, 30, 10), (32, 0, 50, 10)]
    (by decide) (by decide)
  simpa using h

/-- C3 counterexample: a record whose coordinate part fails the
four-integer parse and a record with inverted coordinates both survive
decoding, so the decoded count is not the input count minus the
malformed count (here the claim predicts 0 survivors, the code keeps 2);
the survivor of a dropped '|'-less record also shows positions are
re-indexed in the filtered list rather than kept from the input. -/
theorem C3_counterexample :
    decodeHitboxes ["garbage", "w|a b c d", "v|5 5 3 3"] =
      [("w", "a b c d"), ("v", "5 5 3 3")] ∧
    parseBbox? "a b c d" = none ∧
    parseBbox? "5 5 3 3" = some (5, 5, 3, 3) := by decide

/-- Decoded length counts exactly the records containing a bar. -/
theorem decodeHitboxes_length (l : List String) :
    (decodeHitboxes l).length = l.countP (fun s => (splitBar? s).isSome) := by
  induction l with
  | nil => rfl
  | cons v l ih =>
    cases hv : splitBar? v with
    | none =>
      simp [decodeHitboxes, List.filterMap_cons, hv, List.countP_cons,
        decodeHitboxes] at ih ⊢
      simpa using ih
    | some p =>
      simp [decodeHitboxes, List.filterMap_cons, hv, List.countP_cons] at ih ⊢
      simpa using ih

/-- C3 amended: decoding drops silently exactly the records lacking a
bar: the decoded count is the number of bar-containing records, decoding
distributes over append (so relative order is preserved), a bar-less
record contributes nothing, and a bar-containing record survives as its
normalized word paired with its raw coordinate part — with no coordinate
validation at decode time.  Alignment consumes this decoded sequence. -/
theorem C3_decode_filter (l l1 l2 : List String) (v a b : String) :
    (decodeHitboxes l).length = l.countP (fun s => (splitBar? s).isSome) ∧
    decodeHitboxes (l1 ++ l2) = decodeHitboxes l1 ++ decodeHitboxes l2 ∧
    (splitBar? v = none → decodeHitboxes (l1 ++ v :: l2) = decodeHitboxes (l1 ++ l2)) ∧
    (splitBar? v = some (a, b) →
      decodeHitboxes (l1 ++ v :: l2) =
        decodeHitboxes l1 ++ (normalize a, b) :: decodeHitboxes l2) := by
  refine ⟨decodeHitboxes_length l, ?_, ?_, ?_⟩
  · simp [decodeHitboxes, List.filterMap_append]
  · intro hv
    simp [decodeHitboxes, List.filterMap_append, List.filterMap_cons, hv]
  · intro hv
    simp [decodeHitboxes, List.filterMap_append, List.filterMap_cons, hv]

/-- Witness for C3 amended: inserting a bar-less record changes nothing;
a bar-containing record survives normalized, in place. -/
theorem C3_decode_filter_witness :
    (decodeHitboxes ["nobar", "W.|5 6 7 8"]).length =
      (["nobar", "W.|5 6 7 8"].countP (fun s => (splitBar? s).isSome)) ∧
    decodeHitboxes (["ok|1 2 3 4"] ++ "nobar" :: ["x|9 9 9 9"]) =
      decodeHitboxes (["ok|1 2 3 4"] ++ ["x|9 9 9 9"]) ∧
    decodeHitboxes (["ok|1 2 3 4"] ++ "W.|5 6 7 8" :: ["x|9 9 9 9"]) =
      decodeHitboxes ["ok|1 2 3 4"] ++ ("w", "5 6 7 8") :: decodeHitboxes ["x|9 9 9 9"] := by
  have h1 := C3_decode_filter ["nobar", "W.|5 6 7 8"] ["ok|1 2 3 4"] ["x|9 9 9 9"]
    "nobar" "" ""
  have h2 := C3_decode_filter ["nobar", "W.|5 6 7 8"] ["ok|1 2 3 4"] ["x|9 9 9 9"]
    "W.|5 6 7 8" "W." "5 6 7 8"
  exact ⟨h1.1, h1.2.2.1 (by decide), h2.2.2.2 (by decide)⟩

/-- C4 counterexample: the one-entry sublist taken at index 1 (word
"dog", box 2 2 3 3) is aligned to index 0 and annotated with the other
occurrence's box, not with the range it was taken from. -/
theorem C4_counterexample :
    ((decodeHitboxes ["dog|0 0 1 1", "dog|2 2 3 3"]).drop 1).take 1 =
      [("dog", "2 2 3 3")] ∧
    align (decodeHitboxes ["dog|0 0 1 1", "dog|2 2 3 3"])
        ((((decodeHitboxes ["dog|0 0 1 1", "dog|2 2 3 3"]).drop 1).take 1).map Prod.fst) =
      some (0, [(0, 0, 1, 1)]) := by decide

/-- C4 amended: aligning the word sequence of a contiguous sublist of a
fully parsable decoded sequence always succeeds; it returns the taken
range itself (with its parsed boxes) exactly when no earlier index
matches the sublist's words. -/
theorem C4_roundtrip (H : List (String × String)) (i L : Nat)
    (hval : ∀ q ∈ H, (parseBbox? q.2).isSome)
    (hL : 0 < L) (hiL : i + L ≤ H.length)
    (hfirst : ∀ j, j < i → ¬ matchAt H ((window H i L).map Prod.fst) j) :
    ∃ boxes, align H ((window H i L).map Prod.fst) = some (i, boxes) ∧
      parseAll? (window H i L) = some boxes := by
  set p := (window H i L).map Prod.fst with hpdef
  have hplen : p.length = L := by
    simp [hpdef, window]
    omega
  have hp : p ≠ [] := by
    intro hnil
    rw [hnil] at hplen
    simp at hplen
    omega
  have hwin : window H i p.length = window H i L := by rw [hplen]
  have hm : matchAt H p i := by
    unfold matchAt
    rw [hwin]
  have hsome := align_isSome_of hp hm
    (parseAll?_isSome (fun q hq => hval q (mem_window hq)))
  rw [Option.isSome_iff_exists] at hsome
  obtain ⟨x, hx⟩ := hsome
  obtain ⟨j, boxes⟩ := x
  obtain ⟨hmj, hparse, hmin⟩ := align_some_spec hx
  have hji : j = i := by
    rcases Nat.lt_trichotomy j i with hlt | heq | hgt
    · exact absurd hmj (hfirst j hlt)
    · exact heq
    · exact absurd ⟨hm, parseAll?_isSome (fun q hq => hval q (mem_window hq))⟩
        (hmin i hgt)
  subst hji
  rw [hwin] at hparse
  exact ⟨boxes, hx, hparse⟩

/-- Witness for C4 on a two-word page, taking the sublist at index 1. -/
theorem C4_roundtrip_witness :
    ∃ boxes, align (decodeHitboxes ["aa|0 0 1 1", "bb|2 2 3 3"])
        ((window (decodeHitboxes ["aa|0 0 1 1", "bb|2 2 3 3"]) 1 1).map Prod.fst) =
      some (1, boxes) ∧
      parseAll? (window (decodeHitboxes ["aa|0 0 1 1", "bb|2 2 3 3"]) 1 1) =
        some boxes := by
  exact C4_roundtrip (decodeHitboxes ["aa|0 0 1 1", "bb|2 2 3 3"]) 1 1
    (by decide) (by decide) (by decide) (by decide)

/-- C5: a phrase with no word-level match anywhere in the decoded
sequence is dropped silently: alignment returns nothing, the phrase
emits no annotation and no hit, removing it from a span list leaves the
other phrases' output untouched, and a phrase longer than the decoded
sequence never matches. -/
theorem C5_no_match_dropped (u d c : String) (H : List (String × String))
    (p : List String) (s1 s2 : List (List String))
    (hp : p ≠ []) (h : ∀ i, i < H.length → ¬ matchAt H p i) :
    align H p = none ∧
    processPhrase u d c H p = ([], []) ∧
    processSpans u d c H (s1 ++ p :: s2) = processSpans u d c H (s1 ++ s2) ∧
    (H.length < p.length → align H p = none) := by
  have hall := not_matchAt_of_bounded hp h
  have hnone := align_eq_none hall
  have hfp : processPhrase u d c H p = ([], []) := by
    simp [processPhrase, hnone]
  refine ⟨hnone, hfp, ?_, fun _ => hnone⟩
  unfold processSpans concatPairs
  simp [hfp, List.map_append, List.flatten_append]

/-- Witness for C5: the word "zz" appears nowhere on a one-word page. -/
theorem C5_no_match_dropped_witness :
    align (decodeHitboxes ["aa|0 0 1 1"]) ["zz"] = none ∧
    processPhrase "u" "d" "c" (decodeHitboxes ["aa|0 0 1 1"]) ["zz"] = ([], []) ∧
    processSpans "u" "d" "c" (decodeHitboxes ["aa|0 0 1 1"]) ([["aa"]] ++ ["zz"] :: []) =
      processSpans "u" "d" "c" (decodeHitboxes ["aa|0 0 1 1"]) ([["aa"]] ++ []) ∧
    ((decodeHitboxes ["aa|0 0 1 1"]).length < (["zz"] : List String).length →
      align (decodeHitboxes ["aa|0 0 1 1"]) ["zz"] = none) := by
  exact C5_no_match_dropped "u" "d" "c" (decodeHitboxes ["aa|0 0 1 1"]) ["zz"]
    [["aa"]] [] (by decide) (by decide)

/-- C6 counterexample: an emphasized word is emitted twice — once as a
matched token from the `<em>` element and once more as an unmatched
token when the element's inner text node is visited — so it does not
appear exactly once in the token sequence. -/
theorem C6_counterexample :
    words_with_em [Seg.em "quick"] = [("quick", true), ("quick", false)] ∧
    ((words_with_em [Seg.em "quick"]).map Prod.fst).count "quick" = 2 := by decide

/-- C6 amended: the tokenizer walks the snippet in document order; a
plain-text segment emits each whitespace-split word once as a
matched=false token; an emphasis segment emits its words first as
matched=true tokens and then the same words again as matched=false
tokens (the tag's inner text node is visited a second time by the
pre-order walk); every word is normalized by stripping surrounding
punctuation and lowercasing. -/
theorem C6_tokenizer (s : String) (rest : List Seg) :
    words_with_em ([] : List Seg) = [] ∧
    words_with_em (Seg.text s :: rest) =
      (pySplit s).map (fun w => (normalize w, false)) ++ words_with_em rest ∧
    words_with_em (Seg.em s :: rest) =
      (pySplit s).map (fun w => (normalize w, true)) ++
        ((pySplit s).map (fun w => (normalize w, false)) ++ words_with_em rest) ∧
    normalize "\x22Quick,\x22" = "quick" := by
  refine ⟨rfl, ?_, ?_, by decide⟩ <;> simp [words_with_em, tokenizeSeg]

/-- An annotation emitted for a document records the union box of a
window successfully aligned inside that document's decoded hitboxes. -/
theorem processDoc_fst_mem {a : Anno} {u : String} {doc : SolrDoc}
    (h : a ∈ (processDoc u doc).1) :
    ∃ p i boxes, align (decodeHitboxes doc.hitboxes) p = some (i, boxes) ∧
      a.box = unionBox boxes := by
  unfold processDoc at h
  cases hc : doc.canvasId with
  | none => rw [hc] at h; simp at h
  | some canvas =>
    rw [hc] at h
    cases hs : doc.highlightSnips with
    | none => rw [hs] at h; simp at h
    | some snips =>
      rw [hs] at h
      simp only at h
      by_cases hcv : canvas = ""
      · rw [if_pos hcv] at h; simp at h
      · rw [if_neg hcv] at h
        obtain ⟨pr, hpr, hapr⟩ := mem_concatPairs_fst h
        rw [List.mem_map] at hpr
        obtain ⟨snip, _, rfl⟩ := hpr
        unfold processSnippet processSpans at hapr
        obtain ⟨pr2, hpr2, hapr2⟩ := mem_concatPairs_fst hapr
        rw [List.mem_map] at hpr2
        obtain ⟨p, _, rfl⟩ := hpr2
        obtain ⟨i, boxes, halign, hbox⟩ := processPhrase_fst_mem hapr2
        exact ⟨p, i, boxes, halign, hbox⟩

/-- C7 amended: every annotation emitted by a request whose documents'
parsable decoded boxes are all non-inverted (x1 ≤ x2 and y1 ≤ y2) has
nonnegative width and height; the code itself never checks inversion, so
the hypothesis is needed. -/
theorem C7_nonnegative_boxes (u : String) (data : SolrData) (r : SearchResult)
    (hval : ∀ doc ∈ data.docs, ∀ q ∈ decodeHitboxes doc.hitboxes,
      ∀ b, parseBbox? q.2 = some b → b.1 ≤ b.2.2.1 ∧ b.2.1 ≤ b.2.2.2)
    (h : search_1 u (some data) = Except.ok r) :
    ∀ a ∈ r.resources, 0 ≤ a.box.2.2.1 ∧ 0 ≤ a.box.2.2.2 := by
  simp only [search_1, Except.ok.injEq] at h
  subst h
  intro a ha
  simp only at ha
  obtain ⟨pr, hpr, hapr⟩ := mem_concatPairs_fst ha
  rw [List.mem_map] at hpr
  obtain ⟨doc, hdoc, rfl⟩ := hpr
  obtain ⟨p, i, boxes, halign, hbox⟩ := processDoc_fst_mem hapr
  obtain ⟨_, hparse, _⟩ := align_some_spec halign
  rw [hbox]
  apply unionBox_nonneg
  intro b hb
  obtain ⟨q, hq, hqb⟩ := parseAll?_mem hparse b hb
  exact hval doc hdoc q (mem_window hq) b hqb

/-- C7 counterexample: an inverted hitbox record is rejected nowhere, so
the request emits an annotation whose box has width and height −2. -/
theorem C7_counterexample :
    search_1 "u" (some { numFound := 1, docs := [invertedDoc] }) =
      Except.ok { total := 1, hits := [{ annos := ["u/annotation/d_0_0"] }],
                  resources := [invertedAnno] } ∧
    invertedAnno.box.2.2.1 < 0 ∧ invertedAnno.box.2.2.2 < 0 := by decide

/-- Witness for C7 amended on a request with one valid hitbox. -/
theorem C7_nonnegative_boxes_witness :
    (0 : Int) ≤ validAnno.box.2.2.1 ∧ (0 : Int) ≤ validAnno.box.2.2.2 := by
  exact C7_nonnegative_boxes "u" { numFound := 1, docs := [validDoc] }
    validResult (by decide) (by decide) validAnno (by decide)

/-- C8: a failed index call is the only fatal condition: it yields the
single service-unavailable outcome, never a result with annotations,
while every successfully fetched response is processed to completion
without any error for any contents. -/
theorem C8_index_failure_fatal (u : String) :
    search_1 u none = Except.error "Solr unavailable" ∧
    (∀ r : SearchResult, search_1 u none ≠ Except.ok r) ∧
    (∀ data : SolrData, ∃ r : SearchResult, search_1 u (some data) = Except.ok r) := by
  refine ⟨rfl, ?_, ?_⟩
  · intro r h
    exact Except.noConfusion h
  · intro data
    exact ⟨_, rfl⟩

/-- C9: a document with no highlighting entry is skipped without error
and contributes no annotations, while the reported total is always the
index's `numFound`, independent of skipped documents. -/
theorem C9_missing_highlighting (u : String) (doc : SolrDoc) (data : SolrData)
    (h : doc.highlightSnips = none) :
    processDoc u doc = ([], []) ∧
    ∀ r, search_1 u (some data) = Except.ok r → r.total = data.numFound := by
  constructor
  · unfold processDoc
    rw [h]
    cases doc.canvasId <;> rfl
  · intro r hr
    simp only [search_1, Except.ok.injEq] at hr
    subst hr
    rfl

/-- Witness for C9: a highlighting-less document is skipped while the
total stays the index's count. -/
theorem C9_missing_highlighting_witness :
    processDoc "u" noHlDoc = ([], []) ∧
    ({ total := 7, hits := [], resources := [] } : SearchResult).total =
      ({ numFound := 7, docs := [noHlDoc] } : SolrData).numFound := by
  have h := C9_missing_highlighting "u" noHlDoc
    { numFound := 7, docs := [noHlDoc] } rfl
  exact ⟨h.1, h.2 { total := 7, hits := [], resources := [] } (by decide)⟩

/-- C10: hits and annotations are emitted in lockstep — the hits list is
the annotation list mapped to single-reference hits, the lengths agree,
and the k-th hit references the k-th annotation's id; a document whose
canvas identifier is missing (or empty) produces nothing even with
highlighting present, while the total remains the index's count. -/
theorem C10_hits_lockstep (u : String) (data : SolrData) (r : SearchResult)
    (doc : SolrDoc)
    (h : search_1 u (some data) = Except.ok r)
    (hc : doc.canvasId = none ∨ doc.canvasId = some "") :
    r.hits = r.resources.map (fun a => { annos := [a.annoId] }) ∧
    r.hits.length = r.resources.length ∧
    (∀ k : Nat, r.hits[k]? = (r.resources[k]?).map (fun a => { annos := [a.annoId] })) ∧
    processDoc u doc = ([], []) ∧
    r.total = data.numFound := by
  have hmap : r.hits = r.resources.map (fun a => { annos := [a.annoId] }) := by
    simpa [hitOf] using search_1_snd u data h
  refine ⟨hmap, by rw [hmap]; simp, ?_, ?_, ?_⟩
  · intro k
    rw [hmap, List.getElem?_map]
  · unfold processDoc
    rcases hc with hc | hc
    · rw [hc]
    · rw [hc]
      cases doc.highlightSnips <;> simp
  · simp only [search_1, Except.ok.injEq] at h
    subst h
    rfl

/-- Witness for C10 on a one-annotation request and a canvas-less
document. -/
theorem C10_hits_lockstep_witness :
    validResult.hits = validResult.resources.map (fun a => { annos := [a.annoId] }) ∧
    validResult.hits[0]? =
      (validResult.resources[0]?).map (fun a => { annos := [a.annoId] }) ∧
    processDoc "u" noCanvasDoc = ([], []) ∧
    validResult.total = ({ numFound := 1, docs := [validDoc] } : SolrData).numFound := by
  have h := C10_hits_lockstep "u" { numFound := 1, docs := [validDoc] }
    validResult noCanvasDoc (by decide) (Or.inl rfl)
  exact ⟨h.1, h.2.2.1 0, h.2.2.2.1, h.2.2.2.2⟩

end ContentSearch
